import Mathlib

/-!
Verification development for the regularized covariance estimation and
whitening engine behind examples/plot_evoked_whitening.py.

The script itself only invokes the engine (compute_covariance with
return_estimators=True, whiten_evoked) and computes the global-field-power
diagnostic inline.  The engine's numerical internals are embedded here over
exact rationals; genuinely transcendental quantities (the Gaussian
log-likelihood, the eigendecomposition used to build the whitening matrix)
enter the model as explicit functional parameters, so every definition stays
executable.
-/

namespace EvokedWhitening

/-- Estimator variants: a closed tagged-variant type, one numerical recipe
per variant. -/
inductive Method where
  | empirical
  | diagonal_fixed
  | shrunk
deriving DecidableEq

/-- A trial is a channels-by-time matrix of samples, one row per channel. -/
abbrev Trial := List (List ℚ)

/-- An ordered collection of equal-shape trials with channel metadata.
Channels are already the retained (non-bad) ones: exclusion happens
upstream, before the engine sees the data. -/
structure EpochSet where
  channels : List ℕ
  nTimes : ℕ
  trials : List Trial
deriving DecidableEq

def EpochSet.nChannels (e : EpochSet) : ℕ := e.channels.length

/-- Replace the trials of an epoch set (used for cross-validation folds). -/
def withTrials (e : EpochSet) (tr : List Trial) : EpochSet :=
  { e with trials := tr }

/- Vector and matrix helpers over rationals. -/

def dot (u v : List ℚ) : ℚ := (List.zipWith (· * ·) u v).sum

def vecAdd (u v : List ℚ) : List ℚ := List.zipWith (· + ·) u v

def vecSmul (a : ℚ) (v : List ℚ) : List ℚ := v.map (fun x => a * x)

/-- Pointwise combination a*x + b*y of two equal-length vectors. -/
def rowCombo (a b : ℚ) (u v : List ℚ) : List ℚ :=
  List.zipWith (fun x y => a * x + b * y) u v

/-- Row-wise combination a*X + b*Y of two equal-shape matrices. -/
def matCombo (a b : ℚ) (X Y : List (List ℚ)) : List (List ℚ) :=
  List.zipWith (rowCombo a b) X Y

/-- Linear combination of row vectors: lincomb nT w R = sum_k w_k * R_k,
every row understood to have length nT. -/
def lincomb (nT : ℕ) : List ℚ → List (List ℚ) → List ℚ
  | [], _ => List.replicate nT 0
  | _ :: _, [] => List.replicate nT 0
  | w :: ws, r :: rs => vecAdd (vecSmul w r) (lincomb nT ws rs)

/- Global field power, embedded from the source line
   gfp = (evoked_white.data[picks] ** 2).sum(axis=0) / len(picks). -/

/-- Per-time-sample global field power as the source computes it: squared
amplitudes summed over the picked rows, divided by the number of picks. -/
def gfp (data : List (List ℚ)) (picks : List ℕ) (t : ℕ) : ℚ :=
  ((picks.map (fun i => ((data.getD i []).getD t 0) ^ 2)).sum) / (picks.length : ℚ)

/-- Following the specification text for the DiagnosticReducer: the mean of
squared whitened amplitudes across the whole rank dimension,
GFP(t) = (1/r) * sum_i whitened[i,t]^2 with r the number of rows. -/
def gfpRankMean (data : List (List ℚ)) (t : ℕ) : ℚ :=
  ((data.map (fun row => (row.getD t 0) ^ 2)).sum) / (data.length : ℚ)

lemma map_range_getD {α β : Type} (f : α → β) (d : α) :
    ∀ l : List α, (List.range l.length).map (fun i => f (l.getD i d)) = l.map f := by
  intro l
  induction l with
  | nil => simp
  | cons hd tl ih =>
    rw [List.length_cons, List.range_succ_eq_map]
    simp only [List.map_cons, List.map_map]
    refine congrArg₂ List.cons rfl ?_
    calc (List.range tl.length).map ((fun i => f ((hd :: tl).getD i d)) ∘ Nat.succ)
        = (List.range tl.length).map (fun i => f (tl.getD i d)) := by
          refine List.map_congr_left ?_
          intro i _
          rfl
      _ = tl.map f := ih

/-- C2 counterexample: on whitened data with two rank dimensions of which only
one is picked, the source's GFP (division by len(picks), sum over picks)
differs from the spec formula (1/r)*sum over the whole rank dimension. -/
theorem gfp_counterexample : gfp [[0], [2]] [0] 0 ≠ gfpRankMean [[0], [2]] 0 := by
  norm_num [gfp, gfpRankMean]

/-- C2 (amended): the source computes GFP(t) as the mean of squared amplitudes
over the picked rows, dividing by len(picks); this coincides with the spec's
rank-dimension mean exactly when the picks enumerate all rows of the whitened
data. -/
theorem gfp_picks_mean (data : List (List ℚ)) (t : ℕ) :
    gfp data (List.range data.length) t = gfpRankMean data t := by
  unfold gfp gfpRankMean
  rw [map_range_getD (fun row => (List.getD row t 0) ^ 2) [] data]
  simp

/- Covariance estimators.  Modelled from the spec: the bodies of
compute_covariance's estimator variants live in the mne library, outside the
source tree; sections 3 and 4.1 of the specification describe them and are
followed here. -/

/-- Possible failure conditions of the engine (spec section 7). -/
inductive CovError where
  | UnderdeterminedCovariance
  | ChannelMismatch
  | NumericalInstability
deriving DecidableEq

/-- A fitted covariance: the matrix plus the variant that produced it, its
estimated numerical rank and the optional shrinkage parameter. -/
structure CovarianceMatrix where
  channels : List ℕ
  mat : List (List ℚ)
  method : Method
  rank : ℕ
  shrinkage : Option ℚ
deriving DecidableEq

/-- Number of time samples pooled across all trials. -/
def pooledCount (e : EpochSet) : ℕ := e.trials.length * e.nTimes

/-- Cross moment of channels i and j, pooled over all trials and samples. -/
def pooledCross (e : EpochSet) (i j : ℕ) : ℚ :=
  (e.trials.map (fun tr => dot (tr.getD i []) (tr.getD j []))).sum

/-- Modelled from the spec: sample covariance over all time samples pooled
across trials (trials arrive already centered per the external contract). -/
def rawEmpirical (e : EpochSet) : List (List ℚ) :=
  (List.range e.nChannels).map (fun i =>
    (List.range e.nChannels).map (fun j =>
      pooledCross e i j / (pooledCount e : ℚ)))

/-- Modelled from the spec: the empirical estimator applies no regularization
and fails with UnderdeterminedCovariance when fewer than 2 trials are given or
the channel count exceeds the pooled sample count; otherwise it reports the
generic numerical rank min(channels, pooled samples). -/
def fit_empirical (e : EpochSet) : Except CovError CovarianceMatrix :=
  if e.trials.length < 2 ∨ pooledCount e < e.nChannels then
    .error .UnderdeterminedCovariance
  else
    .ok { channels := e.channels, mat := rawEmpirical e, method := .empirical,
          rank := min e.nChannels (pooledCount e), shrinkage := none }

/-- Per-channel-variance diagonal matrix of an epoch set. -/
def diagVariances (e : EpochSet) : List (List ℚ) :=
  (List.range e.nChannels).map (fun i =>
    (List.range e.nChannels).map (fun j =>
      if i = j then pooledCross e i i / (pooledCount e : ℚ) else 0))

/-- Modelled from the spec: the diagonal-fixed estimator keeps per-channel
variances only and is always full rank over the retained channels. -/
def fit_diagonal_fixed (e : EpochSet) : Except CovError CovarianceMatrix :=
  .ok { channels := e.channels, mat := diagVariances e, method := .diagonal_fixed,
        rank := e.nChannels, shrinkage := none }

/-- Diagonal part of a square matrix, used as the shrinkage target. -/
def diagOf (M : List (List ℚ)) : List (List ℚ) :=
  (List.range M.length).map (fun i =>
    (List.range M.length).map (fun j =>
      if i = j then (M.getD i []).getD i 0 else 0))

/-- Convex combination (1-a)*Sigma_empirical + a*Sigma_target of the
empirical matrix with its diagonal target. -/
def shrunkMat (emp : List (List ℚ)) (a : ℚ) : List (List ℚ) :=
  matCombo (1 - a) a emp (diagOf emp)

/-- Shrinkage grid searched by cross-validation, the spec's documented
default alpha in 0, 0.1, ..., 1.0. -/
def alphaGrid : List ℚ :=
  [0, 1/10, 2/10, 3/10, 4/10, 5/10, 6/10, 7/10, 8/10, 9/10, 1]

/-- First minimizer of f over the grid, scanning left to right. -/
def selectAlpha (f : ℚ → ℚ) : ℚ :=
  alphaGrid.foldl (fun best a => if f a < f best then a else best) 0

/-- Number of cross-validation folds (spec default of a 3-fold split). -/
def kFolds : ℕ := 3

/-- Modelled from the spec: deterministic k-fold split of the trial list.
Trial j lands in validation fold (j + seed) % kFolds, so the split is a pure
function of the explicit seed and the trial ordering. -/
def foldsOf (seed : ℕ) (tr : List Trial) : List (List Trial × List Trial) :=
  (List.range kFolds).map (fun i =>
    ((tr.enum.filter (fun p => (p.1 + seed) % kFolds ≠ i)).map (fun p => p.2),
     (tr.enum.filter (fun p => (p.1 + seed) % kFolds = i)).map (fun p => p.2)))

/-- Cross-validated loss of shrinkage value a: per fold, fit the shrunk
matrix on the fit trials and evaluate the held-out negative log-likelihood.
The transcendental likelihood itself enters as the parameter nll (its
numerical code is not in the source tree). -/
def shrunkCVLoss (nll : List (List ℚ) → List Trial → ℚ) (seed : ℕ)
    (e : EpochSet) (a : ℚ) : ℚ :=
  ((foldsOf seed e.trials).map (fun fv =>
    nll (shrunkMat (rawEmpirical (withTrials e fv.1)) a) fv.2)).sum

/-- Modelled from the spec: the shrunk estimator picks alpha from the grid by
internal cross-validation, returns the convex combination at the selected
alpha and reports that alpha as its regularization parameter. -/
def fit_shrunk (nll : List (List ℚ) → List Trial → ℚ) (seed : ℕ)
    (e : EpochSet) : Except CovError CovarianceMatrix :=
  if e.trials.length < 2 then
    .error .UnderdeterminedCovariance
  else
    let a := selectAlpha (shrunkCVLoss nll seed e)
    .ok { channels := e.channels, mat := shrunkMat (rawEmpirical e) a,
          method := .shrunk,
          rank := if a = 0 then min e.nChannels (pooledCount e) else e.nChannels,
          shrinkage := some a }

/-- Dispatch on the estimator variant. -/
def fitMethod (nll : List (List ℚ) → List Trial → ℚ) (seed : ℕ)
    (m : Method) (e : EpochSet) : Except CovError CovarianceMatrix :=
  match m with
  | .empirical => fit_empirical e
  | .diagonal_fixed => fit_diagonal_fixed e
  | .shrunk => fit_shrunk nll seed e

lemma argmin_foldl (f : ℚ → ℚ) :
    ∀ (l : List ℚ) (b : ℚ),
      (l.foldl (fun best a => if f a < f best then a else best) b = b ∨
        l.foldl (fun best a => if f a < f best then a else best) b ∈ l) ∧
      f (l.foldl (fun best a => if f a < f best then a else best) b) ≤ f b ∧
      ∀ a ∈ l, f (l.foldl (fun best a => if f a < f best then a else best) b) ≤ f a := by
  intro l
  induction l with
  | nil => intro b; exact ⟨Or.inl rfl, le_refl _, fun a ha => absurd ha (List.not_mem_nil a)⟩
  | cons x xs ih =>
    intro b
    simp only [List.foldl_cons]
    obtain ⟨hmem, hle, hall⟩ := ih (if f x < f b then x else b)
    have hbx : f (if f x < f b then x else b) ≤ f b := by
      split
      · exact le_of_lt (by assumption)
      · exact le_refl _
    have hxx : f (if f x < f b then x else b) ≤ f x := by
      split
      · exact le_refl _
      · exact le_of_not_lt (by assumption)
    refine ⟨?_, le_trans hle hbx, ?_⟩
    · rcases hmem with h | h
      · rw [h]
        split
        · exact Or.inr (List.mem_cons_self x xs)
        · exact Or.inl rfl
      · exact Or.inr (List.mem_cons_of_mem x h)
    · intro a ha
      rcases List.mem_cons.mp ha with rfl | h
      · exact le_trans hle hxx
      · exact hall a h

lemma selectAlpha_mem (f : ℚ → ℚ) : selectAlpha f ∈ alphaGrid := by
  obtain ⟨hmem, -, -⟩ := argmin_foldl f alphaGrid 0
  rcases hmem with h | h
  · rw [selectAlpha, h]
    simp [alphaGrid]
  · exact h

lemma selectAlpha_min (f : ℚ → ℚ) : ∀ a ∈ alphaGrid, f (selectAlpha f) ≤ f a := by
  obtain ⟨-, -, hall⟩ := argmin_foldl f alphaGrid 0
  exact hall

lemma alphaGrid_bounds : ∀ a ∈ alphaGrid, 0 ≤ a ∧ a ≤ 1 := by
  intro a ha
  fin_cases ha <;> norm_num

/-- C5: the shrunk estimator's fitted matrix is the convex combination
(1-a)*Sigma_empirical + a*Sigma_target at an alpha in [0,1] selected as a
minimizer of the cross-validated held-out loss over the searched grid, and
that alpha is reported as the estimator's regularization parameter. -/
theorem shrunk_convex_combination (nll : List (List ℚ) → List Trial → ℚ)
    (seed : ℕ) (e : EpochSet) (h2 : 2 ≤ e.trials.length) :
    ∃ c a, fit_shrunk nll seed e = .ok c ∧
      c.mat = matCombo (1 - a) a (rawEmpirical e) (diagOf (rawEmpirical e)) ∧
      c.shrinkage = some a ∧ 0 ≤ a ∧ a ≤ 1 ∧
      ∀ a' ∈ alphaGrid,
        shrunkCVLoss nll seed e a ≤ shrunkCVLoss nll seed e a' := by
  have hnot : ¬ e.trials.length < 2 := by omega
  have heq : fit_shrunk nll seed e = .ok
      { channels := e.channels,
        mat := shrunkMat (rawEmpirical e) (selectAlpha (shrunkCVLoss nll seed e)),
        method := .shrunk,
        rank := if selectAlpha (shrunkCVLoss nll seed e) = 0 then
          min e.nChannels (pooledCount e) else e.nChannels,
        shrinkage := some (selectAlpha (shrunkCVLoss nll seed e)) } := by
    rw [fit_shrunk, if_neg hnot]
  exact ⟨_, selectAlpha (shrunkCVLoss nll seed e), heq, rfl, rfl,
    (alphaGrid_bounds _ (selectAlpha_mem _)).1,
    (alphaGrid_bounds _ (selectAlpha_mem _)).2,
    selectAlpha_min _⟩

/-- C6: on an epoch set with exactly one trial the empirical estimator fails
with UnderdeterminedCovariance, while the diagonal-fixed estimator still
succeeds and returns a covariance of full rank over the retained channels. -/
theorem oneTrial_empirical_fails (nll : List (List ℚ) → List Trial → ℚ)
    (seed : ℕ) (e : EpochSet) (h1 : e.trials.length = 1) :
    fitMethod nll seed .empirical e = .error .UnderdeterminedCovariance ∧
    ∃ c, fitMethod nll seed .diagonal_fixed e = .ok c ∧ c.rank = e.nChannels := by
  constructor
  · have : e.trials.length < 2 ∨ pooledCount e < e.nChannels := Or.inl (by omega)
    simp only [fitMethod, fit_empirical, if_pos this]
  · exact ⟨_, rfl, rfl⟩

/- ModelSelector.  Modelled from the spec: compute_covariance with
return_estimators=True scores every requested variant by cross-validated
log-likelihood and returns the estimators ranked best first; the likelihood
numerics enter as the loglik parameter. -/

/-- Tie-break complexity: diagonal before full-rank shrinkage before the
unregularized empirical matrix (lower is preferred). -/
def Method.complexity : Method → ℕ
  | .diagonal_fixed => 0
  | .shrunk => 1
  | .empirical => 2

/-- A fitted (or failed) covariance together with its aggregated
cross-validation score; bottom is the sentinel worst score. -/
structure ScoredCovariance where
  method : Method
  cov : Except CovError CovarianceMatrix
  score : WithBot ℚ

/-- Per-fold held-out log-likelihoods of variant m that actually fitted;
folds where fitting fails contribute nothing (their FitFailure is contained
here rather than propagated). -/
def foldScores (loglik : CovarianceMatrix → List Trial → ℚ)
    (nll : List (List ℚ) → List Trial → ℚ) (seed : ℕ)
    (e : EpochSet) (m : Method) : List ℚ :=
  (foldsOf seed e.trials).filterMap (fun fv =>
    ((fitMethod nll seed m (withTrials e fv.1)).toOption).map (fun c => loglik c fv.2))

/-- Aggregated score of a variant: the mean held-out log-likelihood over the
folds that fitted, or the sentinel bottom when every fold failed. -/
def scoreOf (loglik : CovarianceMatrix → List Trial → ℚ)
    (nll : List (List ℚ) → List Trial → ℚ) (seed : ℕ)
    (e : EpochSet) (m : Method) : WithBot ℚ :=
  if foldScores loglik nll seed e m = [] then ⊥
  else (((foldScores loglik nll seed e m).sum /
          ((foldScores loglik nll seed e m).length : ℚ) : ℚ) : WithBot ℚ)

/-- Ranking order: strictly better score first, ties broken by the documented
lower-complexity preference. -/
def rankRel (sc : Method → WithBot ℚ) (m₁ m₂ : Method) : Prop :=
  sc m₂ < sc m₁ ∨ (sc m₁ = sc m₂ ∧ m₁.complexity ≤ m₂.complexity)

instance (sc : Method → WithBot ℚ) : DecidableRel (rankRel sc) := fun m₁ m₂ => by
  unfold rankRel
  infer_instance

lemma complexity_inj : ∀ m₁ m₂ : Method, m₁.complexity = m₂.complexity → m₁ = m₂ := by
  intro m₁ m₂ h
  cases m₁ <;> cases m₂ <;> simp_all [Method.complexity]

instance (sc : Method → WithBot ℚ) : IsTotal Method (rankRel sc) := by
  constructor
  intro m₁ m₂
  rcases lt_trichotomy (sc m₁) (sc m₂) with h | h | h
  · exact Or.inr (Or.inl h)
  · rcases Nat.le_total m₁.complexity m₂.complexity with hc | hc
    · exact Or.inl (Or.inr ⟨h, hc⟩)
    · exact Or.inr (Or.inr ⟨h.symm, hc⟩)
  · exact Or.inl (Or.inl h)

instance (sc : Method → WithBot ℚ) : IsTrans Method (rankRel sc) := by
  constructor
  intro a b c hab hbc
  rcases hab with h | ⟨he, hc1⟩
  · rcases hbc with h' | ⟨he', hc'⟩
    · exact Or.inl (lt_trans h' h)
    · exact Or.inl (he' ▸ h)
  · rcases hbc with h' | ⟨he', hc'⟩
    · refine Or.inl ?_
      rw [he]
      exact h'
    · exact Or.inr ⟨he.trans he', le_trans hc1 hc'⟩

instance (sc : Method → WithBot ℚ) : IsAntisymm Method (rankRel sc) := by
  constructor
  intro a b hab hba
  rcases hab with h | ⟨he, hc⟩
  · rcases hba with h' | ⟨he', hc'⟩
    · exact absurd h' (lt_asymm h)
    · exact absurd (he' ▸ h) (lt_irrefl _)
  · rcases hba with h' | ⟨he', hc'⟩
    · exact absurd (he ▸ h') (lt_irrefl _)
    · exact complexity_inj a b (le_antisymm hc hc')

/-- Modelled from the spec: fit and score every requested variant, then
return one ScoredCovariance per variant sorted by descending score with the
documented complexity tie-break; the final covariance for each variant is
fitted on the full epoch set. -/
def estimate_covariances (loglik : CovarianceMatrix → List Trial → ℚ)
    (nll : List (List ℚ) → List Trial → ℚ) (seed : ℕ)
    (e : EpochSet) (variants : List Method) : List ScoredCovariance :=
  (List.insertionSort (rankRel (scoreOf loglik nll seed e)) variants).map (fun m =>
    { method := m, cov := fitMethod nll seed m e,
      score := scoreOf loglik nll seed e m })

lemma estimate_map_method (loglik : CovarianceMatrix → List Trial → ℚ)
    (nll : List (List ℚ) → List Trial → ℚ) (seed : ℕ)
    (e : EpochSet) (variants : List Method) :
    (estimate_covariances loglik nll seed e variants).map ScoredCovariance.method
      = List.insertionSort (rankRel (scoreOf loglik nll seed e)) variants := by
  unfold estimate_covariances
  rw [List.map_map]
  exact List.map_id _

/-- C1: every requested variant appears exactly once in the output of
estimate_covariances, and the returned sequence is sorted in descending order
of score, best first. -/
theorem estimate_exactlyOnce_sorted (loglik : CovarianceMatrix → List Trial → ℚ)
    (nll : List (List ℚ) → List Trial → ℚ) (seed : ℕ)
    (e : EpochSet) (variants : List Method) (hnd : variants.Nodup) :
    (∀ v ∈ variants,
      ((estimate_covariances loglik nll seed e variants).map ScoredCovariance.method).count v
        = 1) ∧
    List.Sorted (fun s₁ s₂ : ScoredCovariance => s₂.score ≤ s₁.score)
      (estimate_covariances loglik nll seed e variants) := by
  have hperm : (List.insertionSort (rankRel (scoreOf loglik nll seed e)) variants).Perm
      variants := List.perm_insertionSort _ _
  constructor
  · intro v hv
    rw [estimate_map_method, hperm.count_eq, List.count_eq_one_of_mem hnd hv]
  · have hs : List.Sorted (rankRel (scoreOf loglik nll seed e))
        (List.insertionSort (rankRel (scoreOf loglik nll seed e)) variants) :=
      List.sorted_insertionSort _ _
    refine List.Pairwise.map _ ?_ hs
    intro a b hab
    rcases hab with h | ⟨he, -⟩
    · exact le_of_lt h
    · exact le_of_eq he.symm

/-- C8: a variant whose fitting fails on every cross-validation fold is still
present in the ranking with the sentinel worst score, and every other
requested variant is still ranked. -/
theorem failed_variant_sentinel (loglik : CovarianceMatrix → List Trial → ℚ)
    (nll : List (List ℚ) → List Trial → ℚ) (seed : ℕ)
    (e : EpochSet) (variants : List Method) (m : Method) (hm : m ∈ variants)
    (hfail : ∀ fv ∈ foldsOf seed e.trials,
      (fitMethod nll seed m (withTrials e fv.1)).toOption = none) :
    (∃ s ∈ estimate_covariances loglik nll seed e variants,
      s.method = m ∧ s.score = ⊥) ∧
    ∀ v ∈ variants, ∃ s ∈ estimate_covariances loglik nll seed e variants,
      s.method = v := by
  have hnil : foldScores loglik nll seed e m = [] := by
    rw [foldScores, List.filterMap_eq_nil_iff]
    intro fv hfv
    rw [hfail fv hfv]
    rfl
  have hscore : scoreOf loglik nll seed e m = ⊥ := by
    rw [scoreOf, if_pos hnil]
  constructor
  · refine ⟨{ method := m, cov := fitMethod nll seed m e,
              score := scoreOf loglik nll seed e m }, ?_, rfl, hscore⟩
    exact List.mem_map_of_mem _
      ((List.mem_insertionSort (rankRel (scoreOf loglik nll seed e))).mpr hm)
  · intro v hv
    exact ⟨{ method := v, cov := fitMethod nll seed v e,
             score := scoreOf loglik nll seed e v },
      List.mem_map_of_mem _
        ((List.mem_insertionSort (rankRel (scoreOf loglik nll seed e))).mpr hv), rfl⟩

/-- C9: estimate_covariances is deterministic and its ranking does not depend
on the arrival order of the per-variant results: permuting the requested
variant list leaves the ranked output unchanged, because the output is sorted
by score with the complexity tie-break, an antisymmetric total order. -/
theorem estimate_deterministic (loglik : CovarianceMatrix → List Trial → ℚ)
    (nll : List (List ℚ) → List Trial → ℚ) (seed : ℕ)
    (e : EpochSet) (v₁ v₂ : List Method) (hp : v₁.Perm v₂) :
    estimate_covariances loglik nll seed e v₁
      = estimate_covariances loglik nll seed e v₂ := by
  have hperm : (List.insertionSort (rankRel (scoreOf loglik nll seed e)) v₁).Perm
      (List.insertionSort (rankRel (scoreOf loglik nll seed e)) v₂) :=
    (List.perm_insertionSort _ _).trans (hp.trans (List.perm_insertionSort _ _).symm)
  unfold estimate_covariances
  congr 1
  exact List.eq_of_perm_of_sorted hperm
    (List.sorted_insertionSort _ _) (List.sorted_insertionSort _ _)

/- Whitener.  Modelled from the spec: whiten_evoked lives in the mne
library, outside the source tree.  The numeric eigendecomposition that
produces the (rank x selected-channels) whitening matrix enters as the
parameter Wof; the channel-set check and the application of the transform
are modelled concretely. -/

/-- An externally averaged evoked signal: channels-by-time data with a time
axis and channel metadata. -/
structure Evoked where
  channels : List ℕ
  times : List ℚ
  data : List (List ℚ)
deriving DecidableEq

/-- Rows of the evoked data belonging to the masked channels, located through
channel metadata. -/
def selectRows (ev : Evoked) (mask : List ℕ) : List (List ℚ) :=
  mask.map (fun c => ev.data.getD (ev.channels.indexOf c) [])

/-- Modelled from the spec: whitening checks that every masked channel is
present in the covariance's channel ordering, failing fatally with
ChannelMismatch otherwise, and applies the whitening matrix to the selected
rows; output rows live in whitened component space, one per transform row. -/
def whiten_evoked (Wof : CovarianceMatrix → List ℕ → List (List ℚ))
    (ev : Evoked) (cov : CovarianceMatrix) (mask : List ℕ) :
    Except CovError Evoked :=
  if mask.all (fun c => decide (c ∈ cov.channels)) then
    .ok { channels := List.range (Wof cov mask).length,
          times := ev.times,
          data := (Wof cov mask).map
            (fun w => lincomb ev.times.length w (selectRows ev mask)) }
  else .error .ChannelMismatch

/-- Pointwise combination a*e1 + b*e2 of two evoked signals of matching
shape. -/
def evokedCombo (a b : ℚ) (e₁ e₂ : Evoked) : Evoked :=
  { channels := e₁.channels, times := e₁.times,
    data := matCombo a b e₁.data e₂.data }

lemma matCombo_cons (a b : ℚ) (r₁ r₂ : List ℚ) (T₁ T₂ : List (List ℚ)) :
    matCombo a b (r₁ :: T₁) (r₂ :: T₂) = rowCombo a b r₁ r₂ :: matCombo a b T₁ T₂ := rfl

lemma lincomb_cons (nT : ℕ) (w : ℚ) (ws : List ℚ) (r : List ℚ) (rs : List (List ℚ)) :
    lincomb nT (w :: ws) (r :: rs) = vecAdd (vecSmul w r) (lincomb nT ws rs) := rfl

lemma rowCombo_replicate_zero (a b : ℚ) :
    ∀ n, rowCombo a b (List.replicate n 0) (List.replicate n 0) = List.replicate n 0 := by
  intro n
  induction n with
  | zero => rfl
  | succ k ih =>
    simp only [List.replicate_succ, rowCombo, List.zipWith_cons_cons]
    refine congrArg₂ List.cons (by ring) ?_
    exact ih

lemma lincomb_length (nT : ℕ) :
    ∀ (w : List ℚ) (R : List (List ℚ)),
      (∀ r ∈ R, r.length = nT) → (lincomb nT w R).length = nT := by
  intro w
  induction w with
  | nil => intro R h; simp [lincomb]
  | cons w₀ ws ih =>
    intro R h
    cases R with
    | nil => simp [lincomb]
    | cons r rs =>
      rw [lincomb_cons, vecAdd, List.length_zipWith, vecSmul, List.length_map]
      rw [h r (List.mem_cons_self r rs),
        ih rs (fun x hx => h x (List.mem_cons_of_mem r hx))]
      exact Nat.min_self nT

lemma combo_pointwise (w a b : ℚ) :
    ∀ (r₁ r₂ u₁ u₂ : List ℚ),
      r₁.length = r₂.length → u₁.length = r₁.length → u₂.length = r₁.length →
      vecAdd (vecSmul w (rowCombo a b r₁ r₂)) (rowCombo a b u₁ u₂)
        = rowCombo a b (vecAdd (vecSmul w r₁) u₁) (vecAdd (vecSmul w r₂) u₂) := by
  intro r₁
  induction r₁ with
  | nil =>
    intro r₂ u₁ u₂ h₁ h₂ h₃
    have hr₂ : r₂ = [] := List.length_eq_zero.mp h₁.symm
    have hu₁ : u₁ = [] := List.length_eq_zero.mp h₂
    have hu₂ : u₂ = [] := List.length_eq_zero.mp h₃
    subst hr₂; subst hu₁; subst hu₂
    rfl
  | cons x xs ih =>
    intro r₂ u₁ u₂ h₁ h₂ h₃
    cases r₂ with
    | nil => simp at h₁
    | cons y ys =>
      cases u₁ with
      | nil => simp at h₂
      | cons p ps =>
        cases u₂ with
        | nil => simp at h₃
        | cons q qs =>
          simp only [rowCombo, vecSmul, vecAdd, List.zipWith_cons_cons, List.map_cons]
          refine congrArg₂ List.cons (by ring) ?_
          exact ih ys ps qs (by simpa using h₁) (by simpa using h₂) (by simpa using h₃)

lemma lincomb_matCombo (nT : ℕ) (a b : ℚ) :
    ∀ (w : List ℚ) (R₁ R₂ : List (List ℚ)),
      R₁.length = R₂.length →
      (∀ r ∈ R₁, r.length = nT) → (∀ r ∈ R₂, r.length = nT) →
      lincomb nT w (matCombo a b R₁ R₂)
        = rowCombo a b (lincomb nT w R₁) (lincomb nT w R₂) := by
  intro w
  induction w with
  | nil =>
    intro R₁ R₂ hlen h₁ h₂
    exact (rowCombo_replicate_zero a b nT).symm
  | cons w₀ ws ih =>
    intro R₁ R₂ hlen h₁ h₂
    cases R₁ with
    | nil =>
      have hR₂ : R₂ = [] := List.length_eq_zero.mp hlen.symm
      subst hR₂
      exact (rowCombo_replicate_zero a b nT).symm
    | cons r₁ T₁ =>
      cases R₂ with
      | nil => simp at hlen
      | cons r₂ T₂ =>
        have hr₁ : r₁.length = nT := h₁ r₁ (List.mem_cons_self _ _)
        have hr₂ : r₂.length = nT := h₂ r₂ (List.mem_cons_self _ _)
        have hT₁ : ∀ r ∈ T₁, r.length = nT := fun r hr => h₁ r (List.mem_cons_of_mem _ hr)
        have hT₂ : ∀ r ∈ T₂, r.length = nT := fun r hr => h₂ r (List.mem_cons_of_mem _ hr)
        rw [matCombo_cons, lincomb_cons, lincomb_cons, lincomb_cons,
          ih T₁ T₂ (by simpa using hlen) hT₁ hT₂]
        apply combo_pointwise
        · rw [hr₁, hr₂]
        · rw [lincomb_length nT ws T₁ hT₁, hr₁]
        · rw [lincomb_length nT ws T₂ hT₂, hr₁]

lemma zipWith_map_both {α β γ : Type} (g : β → β → γ) (f₁ f₂ : α → β) :
    ∀ l : List α, List.zipWith g (l.map f₁) (l.map f₂) = l.map (fun x => g (f₁ x) (f₂ x)) := by
  intro l
  induction l with
  | nil => rfl
  | cons hd tl ih => simp only [List.map_cons, List.zipWith_cons_cons, ih]

lemma getD_matCombo (a b : ℚ) (X Y : List (List ℚ)) (i : ℕ)
    (hx : i < X.length) (hy : i < Y.length) :
    (matCombo a b X Y).getD i [] = rowCombo a b (X.getD i []) (Y.getD i []) := by
  have hz : i < (matCombo a b X Y).length := by
    rw [matCombo, List.length_zipWith]
    omega
  rw [List.getD_eq_getElem _ _ hz, List.getD_eq_getElem _ _ hx,
    List.getD_eq_getElem _ _ hy]
  exact List.getElem_zipWith

lemma selectRows_combo (a b : ℚ) (e₁ e₂ : Evoked) (mask : List ℕ)
    (hch : e₂.channels = e₁.channels)
    (hd₁ : e₁.data.length = e₁.channels.length)
    (hd₂ : e₂.data.length = e₁.channels.length)
    (hmask : ∀ c ∈ mask, c ∈ e₁.channels) :
    selectRows (evokedCombo a b e₁ e₂) mask
      = List.zipWith (rowCombo a b) (selectRows e₁ mask) (selectRows e₂ mask) := by
  unfold selectRows evokedCombo
  rw [hch, zipWith_map_both]
  apply List.map_congr_left
  intro c hc
  have hidx : e₁.channels.indexOf c < e₁.channels.length :=
    List.indexOf_lt_length.mpr (hmask c hc)
  exact getD_matCombo a b e₁.data e₂.data _ (hd₁ ▸ hidx) (hd₂ ▸ hidx)

lemma selectRows_row_length (ev : Evoked) (mask : List ℕ)
    (hd : ev.data.length = ev.channels.length)
    (hrow : ∀ r ∈ ev.data, r.length = ev.times.length)
    (hmask : ∀ c ∈ mask, c ∈ ev.channels) :
    ∀ r ∈ selectRows ev mask, r.length = ev.times.length := by
  intro r hr
  obtain ⟨c, hc, rfl⟩ := List.mem_map.mp hr
  have hidx : ev.channels.indexOf c < ev.data.length := by
    rw [hd]
    exact List.indexOf_lt_length.mpr (hmask c hc)
  rw [List.getD_eq_getElem _ _ hidx]
  exact hrow _ (List.getElem_mem hidx)

/-- C3: on a valid mask, whitening succeeds and the output dimensionality is
the covariance's retained rank (the number of rows of the whitening matrix),
not the original channel count. -/
theorem whiten_rank_dim (Wof : CovarianceMatrix → List ℕ → List (List ℚ))
    (ev : Evoked) (cov : CovarianceMatrix) (mask : List ℕ)
    (hW : (Wof cov mask).length = cov.rank)
    (hmask : mask.all (fun c => decide (c ∈ cov.channels)) = true) :
    ∃ o, whiten_evoked Wof ev cov mask = .ok o ∧ o.data.length = cov.rank := by
  refine ⟨{ channels := List.range (Wof cov mask).length, times := ev.times,
            data := (Wof cov mask).map
              (fun w => lincomb ev.times.length w (selectRows ev mask)) }, ?_, ?_⟩
  · rw [whiten_evoked, if_pos hmask]
  · simpa using hW

/-- C7: if the mask selects any channel absent from the covariance's channel
ordering, whitening fails with ChannelMismatch and produces no partial
result. -/
theorem whiten_channel_mismatch (Wof : CovarianceMatrix → List ℕ → List (List ℚ))
    (ev : Evoked) (cov : CovarianceMatrix) (mask : List ℕ) (c : ℕ)
    (hc : c ∈ mask) (habs : c ∉ cov.channels) :
    whiten_evoked Wof ev cov mask = .error .ChannelMismatch := by
  have hnot : ¬ (mask.all (fun x => decide (x ∈ cov.channels)) = true) := by
    intro hall
    exact habs (of_decide_eq_true (List.all_eq_true.mp hall c hc))
  rw [whiten_evoked, if_neg hnot]

/-- C4: whitening is linear in the evoked data: whitening a*e1 + b*e2 gives
a*whiten(e1) + b*whiten(e2), rowwise and exactly over the rationals. -/
theorem whiten_linear (Wof : CovarianceMatrix → List ℕ → List (List ℚ))
    (a b : ℚ) (e₁ e₂ : Evoked) (cov : CovarianceMatrix) (mask : List ℕ)
    (hch : e₂.channels = e₁.channels) (htimes : e₂.times = e₁.times)
    (hd₁ : e₁.data.length = e₁.channels.length)
    (hd₂ : e₂.data.length = e₁.channels.length)
    (hrow₁ : ∀ r ∈ e₁.data, r.length = e₁.times.length)
    (hrow₂ : ∀ r ∈ e₂.data, r.length = e₁.times.length)
    (hmaskch : ∀ c ∈ mask, c ∈ e₁.channels)
    (hmaskcov : mask.all (fun c => decide (c ∈ cov.channels)) = true) :
    ∃ o₁ o₂ o₃,
      whiten_evoked Wof e₁ cov mask = .ok o₁ ∧
      whiten_evoked Wof e₂ cov mask = .ok o₂ ∧
      whiten_evoked Wof (evokedCombo a b e₁ e₂) cov mask = .ok o₃ ∧
      o₃.data = matCombo a b o₁.data o₂.data := by
  refine ⟨_, _, _, by rw [whiten_evoked, if_pos hmaskcov],
    by rw [whiten_evoked, if_pos hmaskcov],
    by rw [whiten_evoked, if_pos hmaskcov], ?_⟩
  show (Wof cov mask).map
      (fun w => lincomb (evokedCombo a b e₁ e₂).times.length w
        (selectRows (evokedCombo a b e₁ e₂) mask))
    = matCombo a b
      ((Wof cov mask).map (fun w => lincomb e₁.times.length w (selectRows e₁ mask)))
      ((Wof cov mask).map (fun w => lincomb e₂.times.length w (selectRows e₂ mask)))
  rw [matCombo, zipWith_map_both]
  apply List.map_congr_left
  intro w _
  have hsel : selectRows (evokedCombo a b e₁ e₂) mask
      = List.zipWith (rowCombo a b) (selectRows e₁ mask) (selectRows e₂ mask) :=
    selectRows_combo a b e₁ e₂ mask hch hd₁ hd₂ hmaskch
  have hlen : (selectRows e₁ mask).length = (selectRows e₂ mask).length := by
    unfold selectRows
    rw [List.length_map, List.length_map]
  have hrows₁ : ∀ r ∈ selectRows e₁ mask, r.length = e₁.times.length :=
    selectRows_row_length e₁ mask hd₁ hrow₁ hmaskch
  have hrows₂ : ∀ r ∈ selectRows e₂ mask, r.length = e₁.times.length := by
    intro r hr
    have hmask₂ : ∀ c ∈ mask, c ∈ e₂.channels := by
      intro c hc
      rw [hch]
      exact hmaskch c hc
    have hd₂' : e₂.data.length = e₂.channels.length := by rw [hch]; exact hd₂
    have hrow₂' : ∀ r ∈ e₂.data, r.length = e₂.times.length := by
      intro r hr
      rw [htimes]
      exact hrow₂ r hr
    have := selectRows_row_length e₂ mask hd₂' hrow₂' hmask₂ r hr
    rw [this, htimes]
  show lincomb e₁.times.length w (selectRows (evokedCombo a b e₁ e₂) mask)
    = rowCombo a b (lincomb e₁.times.length w (selectRows e₁ mask))
        (lincomb e₂.times.length w (selectRows e₂ mask))
  rw [htimes, hsel]
  exact lincomb_matCombo e₁.times.length a b w _ _ hlen hrows₁ hrows₂

/- Frame model.  Modelled from the spec: the engine's components are stateless
pure functions; a call that whitens the evoked object held in a store of
evoked objects is modelled with explicit state passing. -/

def emptyEvoked : Evoked := { channels := [], times := [], data := [] }

/-- State-passing form of a whitening call against a store of evoked objects:
the call reads object i and returns the store alongside the result. -/
def whitenCall (Wof : CovarianceMatrix → List ℕ → List (List ℚ))
    (store : List Evoked) (i : ℕ) (cov : CovarianceMatrix) (mask : List ℕ) :
    List Evoked × Except CovError Evoked :=
  (store, whiten_evoked Wof (store.getD i emptyEvoked) cov mask)

/-- C10: whitening does not mutate its input: the store (hence the evoked
object's data, time axis and channel metadata) is unchanged by a call, and a
later whitening of the same object with another covariance returns exactly
what a fresh call would, depending only on that call's covariance. -/
theorem whitenCall_no_mutation (Wof : CovarianceMatrix → List ℕ → List (List ℚ))
    (store : List Evoked) (i j : ℕ) (cov₁ cov₂ : CovarianceMatrix)
    (mask₁ mask₂ : List ℕ) :
    (whitenCall Wof store i cov₁ mask₁).1 = store ∧
    (whitenCall Wof ((whitenCall Wof store i cov₁ mask₁).1) j cov₂ mask₂).2
      = (whitenCall Wof store j cov₂ mask₂).2 := ⟨rfl, rfl⟩

/- Concrete fixtures used to witness the theorems above. -/

def zeroLoglik : CovarianceMatrix → List Trial → ℚ := fun _ _ => 0

def zeroNll : List (List ℚ) → List Trial → ℚ := fun _ _ => 0

def demoEpochs : EpochSet :=
  { channels := [0, 1], nTimes := 2,
    trials := [[[1, 0], [0, 1]], [[1, 2], [2, 1]]] }

def oneTrialEpochs : EpochSet :=
  { channels := [0, 1], nTimes := 2, trials := [[[1, 0], [0, 1]]] }

def demoWof : CovarianceMatrix → List ℕ → List (List ℚ) :=
  fun cov mask => List.replicate cov.rank (List.replicate mask.length 1)

def demoCov : CovarianceMatrix :=
  { channels := [0, 1], mat := [[1, 0], [0, 1]], method := .empirical,
    rank := 1, shrinkage := none }

def demoEvoked : Evoked :=
  { channels := [0, 1], times := [0, 1], data := [[1, 2], [3, 4]] }

def demoEvokedB : Evoked :=
  { channels := [0, 1], times := [0, 1], data := [[5, 6], [7, 8]] }

/-- Witness for C1 at the source script's variant pair. -/
theorem estimate_exactlyOnce_sorted_witness :
    [Method.diagonal_fixed, Method.shrunk].Nodup ∧
    ((estimate_covariances zeroLoglik zeroNll 0 demoEpochs
        [Method.diagonal_fixed, Method.shrunk]).map ScoredCovariance.method).count
      Method.diagonal_fixed = 1 :=
  ⟨by decide, (estimate_exactlyOnce_sorted zeroLoglik zeroNll 0 demoEpochs
      [Method.diagonal_fixed, Method.shrunk] (by decide)).1 Method.diagonal_fixed
      (by decide)⟩

/-- Witness for C3: a rank-1 covariance over two channels whitens a
two-channel evoked into one whitened component. -/
theorem whiten_rank_dim_witness :
    ∃ o, whiten_evoked demoWof demoEvoked demoCov [0, 1] = .ok o ∧
      o.data.length = demoCov.rank :=
  whiten_rank_dim demoWof demoEvoked demoCov [0, 1] rfl rfl

/-- Witness for C4 at concrete scalars 2 and 3. -/
theorem whiten_linear_witness :
    ∃ o₁ o₂ o₃,
      whiten_evoked demoWof demoEvoked demoCov [0, 1] = .ok o₁ ∧
      whiten_evoked demoWof demoEvokedB demoCov [0, 1] = .ok o₂ ∧
      whiten_evoked demoWof (evokedCombo 2 3 demoEvoked demoEvokedB) demoCov [0, 1]
        = .ok o₃ ∧
      o₃.data = matCombo 2 3 o₁.data o₂.data :=
  whiten_linear demoWof 2 3 demoEvoked demoEvokedB demoCov [0, 1] rfl rfl rfl rfl
    (by decide) (by decide) (by decide) rfl

/-- Witness for C5 on a two-trial epoch set. -/
theorem shrunk_convex_combination_witness :
    ∃ c a, fit_shrunk zeroNll 0 demoEpochs = .ok c ∧
      c.mat = matCombo (1 - a) a (rawEmpirical demoEpochs)
        (diagOf (rawEmpirical demoEpochs)) ∧
      c.shrinkage = some a ∧ 0 ≤ a ∧ a ≤ 1 ∧
      ∀ a' ∈ alphaGrid,
        shrunkCVLoss zeroNll 0 demoEpochs a ≤ shrunkCVLoss zeroNll 0 demoEpochs a' :=
  shrunk_convex_combination zeroNll 0 demoEpochs (by decide)

/-- Witness for C6 on a one-trial epoch set. -/
theorem oneTrial_empirical_fails_witness :
    fitMethod zeroNll 0 .empirical oneTrialEpochs
      = .error .UnderdeterminedCovariance ∧
    ∃ c, fitMethod zeroNll 0 .diagonal_fixed oneTrialEpochs = .ok c ∧
      c.rank = oneTrialEpochs.nChannels :=
  oneTrial_empirical_fails zeroNll 0 oneTrialEpochs rfl

/-- Witness for C7: masking channel 2, absent from the covariance's channel
ordering 0, 1. -/
theorem whiten_channel_mismatch_witness :
    whiten_evoked demoWof demoEvoked demoCov [0, 2] = .error .ChannelMismatch :=
  whiten_channel_mismatch demoWof demoEvoked demoCov [0, 2] 2 (by decide) (by decide)

/-- Witness for C8: with a single trial the empirical variant fails on every
fold yet is still ranked, with the sentinel bottom score. -/
theorem failed_variant_sentinel_witness :
    (∃ s ∈ estimate_covariances zeroLoglik zeroNll 0 oneTrialEpochs
        [Method.empirical, Method.diagonal_fixed],
      s.method = Method.empirical ∧ s.score = ⊥) ∧
    ∀ v ∈ [Method.empirical, Method.diagonal_fixed],
      ∃ s ∈ estimate_covariances zeroLoglik zeroNll 0 oneTrialEpochs
          [Method.empirical, Method.diagonal_fixed],
        s.method = v :=
  failed_variant_sentinel zeroLoglik zeroNll 0 oneTrialEpochs
    [Method.empirical, Method.diagonal_fixed] Method.empirical (by decide) (by decide)

/-- Witness for C9: the two arrival orders of the source script's variant
pair produce identical ranked output. -/
theorem estimate_deterministic_witness :
    estimate_covariances zeroLoglik zeroNll 0 demoEpochs
        [Method.shrunk, Method.diagonal_fixed]
      = estimate_covariances zeroLoglik zeroNll 0 demoEpochs
        [Method.diagonal_fixed, Method.shrunk] :=
  estimate_deterministic zeroLoglik zeroNll 0 demoEpochs _ _
    (List.Perm.swap _ _ _)

end EvokedWhitening
